import Mathlib

/-!
Verification of image_sender.py: palette quantization, frame encoding and
packet framing.

Colors are integer RGB triples (python ints are unbounded); byte buffers are
lists of naturals; fallible packet construction returns Except.
-/

namespace ImageSender

/-- A color is an RGB triple of (unbounded) integers, as python manipulates it. -/
abbrev Color := ℤ × ℤ × ℤ

/-- PALETTE_8_COLORS from image_sender.py: the fixed 8-color palette. -/
def PALETTE_8_COLORS : List Color :=
  [(0, 0, 0), (0, 0, 255), (0, 255, 0), (0, 255, 255),
   (255, 0, 0), (255, 0, 255), (255, 255, 0), (255, 255, 255)]

/-- DEFAULT_MAGIC from image_sender.py: the 4 ASCII bytes of IMG3. -/
def DEFAULT_MAGIC : List ℕ := [73, 77, 71, 51]

/-- The function color_distance_sq of image_sender.py: squared euclidean
distance between two RGB colors. -/
def color_distance_sq (c1 c2 : Color) : ℤ :=
  let dr := c1.1 - c2.1
  let dg := c1.2.1 - c2.2.1
  let db := c1.2.2 - c2.2.2
  dr * dr + dg * dg + db * db

/-- The enumerate loop body of quantize_color_to_palette_3bit: walks the
remaining palette entries carrying the running index, the best index and the
best distance (None before the first entry, as in the python code). -/
def quantizeAux (rgb : Color) : List Color → ℕ → ℕ → Option ℤ → ℕ
  | [], _, bestIndex, _ => bestIndex
  | palColor :: rest, idx, bestIndex, bestDist =>
      let dist := color_distance_sq rgb palColor
      match bestDist with
      | none => quantizeAux rgb rest (idx + 1) idx (some dist)
      | some bd =>
          if dist < bd then quantizeAux rgb rest (idx + 1) idx (some dist)
          else quantizeAux rgb rest (idx + 1) bestIndex (some bd)

/-- The function quantize_color_to_palette_3bit of image_sender.py: index of
the nearest palette color, scanning entries in declaration order. -/
def quantize_color_to_palette_3bit (rgb : Color) : ℕ :=
  quantizeAux rgb PALETTE_8_COLORS 0 0 none

/-- Distance from rgb to the palette entry at index j (entries are looked up
with a default that is never reached for j below 8). -/
def distToEntry (rgb : Color) (j : ℕ) : ℤ :=
  color_distance_sq rgb (PALETTE_8_COLORS.getD j (0, 0, 0))

/-- The pixel-scanning loop of load_and_convert_to_3bit_indices in
image_sender.py. Image decoding and resizing are external collaborators
(Pillow); the decoded, resized image is modelled as a pixel lookup function
getpixel, applied exactly as the double loop does: y outer over height, x
inner over width. The function returns (pixel_indices, width, height). -/
def load_and_convert_to_3bit_indices (getpixel : ℕ → ℕ → Color)
    (width height : ℕ) : List ℕ × ℕ × ℕ :=
  ((List.range height).flatMap fun y => (List.range width).map fun x =>
      quantize_color_to_palette_3bit (getpixel x y), width, height)

/-- The function pack_pixels_1byte_per_pixel of image_sender.py: one byte per
pixel, keeping only the low 3 bits (idx AND 0x07, which on the unbounded
python integers is idx mod 8). -/
def pack_pixels_1byte_per_pixel (pixel_indices : List ℤ) : List ℕ :=
  pixel_indices.map fun idx => (idx % 8).toNat

/-- Errors surfaced by build_image_packet: the explicit ValueError raised for
a bad magic length, and the OverflowError raised by int.to_bytes(2, big,
unsigned) when a dimension does not fit in 16 unsigned bits. -/
inductive PacketError where
  | invalidMagicLength
  | dimensionOutOfRange
deriving DecidableEq

/-- Python int.to_bytes(2, byteorder big, signed False): the two big-endian
bytes of n when 0 <= n < 65536, an OverflowError (none) otherwise. -/
def int_to_bytes_2_be (n : ℤ) : Option (List ℕ) :=
  if 0 ≤ n ∧ n < 65536 then some [(n / 256).toNat, (n % 256).toNat] else none

/-- The function build_image_packet of image_sender.py: magic (4 bytes) ++
width (2 bytes big-endian) ++ height (2 bytes big-endian) ++ one byte per
pixel index. The only explicit validation in the source is the magic length
check; dimension range failures come from int.to_bytes. -/
def build_image_packet (pixel_indices : List ℤ) (width height : ℤ)
    (magic : List ℕ) : Except PacketError (List ℕ) :=
  if magic.length ≠ 4 then Except.error PacketError.invalidMagicLength
  else
    match int_to_bytes_2_be width with
    | none => Except.error PacketError.dimensionOutOfRange
    | some wbytes =>
        match int_to_bytes_2_be height with
        | none => Except.error PacketError.dimensionOutOfRange
        | some hbytes =>
            Except.ok (magic ++ wbytes ++ hbytes ++
              pack_pixels_1byte_per_pixel pixel_indices)

/-- Modelled from the spec (claim C10): the per-channel threshold encoding
4*[r at least 128] + 2*[g at least 128] + [b at least 128], the candidate
refinement of the quantizer stated by the claim. Spec-side definition, to be
compared with quantize_color_to_palette_3bit. -/
def threshold_encode (rgb : Color) : ℕ :=
  4 * (if 128 ≤ rgb.1 then 1 else 0) + 2 * (if 128 ≤ rgb.2.1 then 1 else 0) +
    (if 128 ≤ rgb.2.2 then 1 else 0)

/-- Invariant of the quantization loop once the best distance is set: either
no later entry strictly beats the incoming best (result is the incoming best
index), or the result is the position of the first entry attaining the strict
minimum among the remaining entries, which also strictly beats the incoming
best. -/
lemma quantizeAux_spec (rgb : Color) :
    ∀ (l : List Color) (idx bi : ℕ) (bd : ℤ),
      (quantizeAux rgb l idx bi (some bd) = bi ∧
        ∀ k, k < l.length → bd ≤ color_distance_sq rgb (l.getD k (0, 0, 0))) ∨
      (∃ k, k < l.length ∧ quantizeAux rgb l idx bi (some bd) = idx + k ∧
        color_distance_sq rgb (l.getD k (0, 0, 0)) < bd ∧
        (∀ m, m < l.length →
          color_distance_sq rgb (l.getD k (0, 0, 0)) ≤
            color_distance_sq rgb (l.getD m (0, 0, 0))) ∧
        (∀ m, m < k →
          color_distance_sq rgb (l.getD k (0, 0, 0)) <
            color_distance_sq rgb (l.getD m (0, 0, 0)))) := by
  intro l
  induction l with
  | nil =>
      intro idx bi bd
      left
      constructor
      · rfl
      · intro k hk
        simp at hk
  | cons c rest ih =>
      intro idx bi bd
      by_cases hd : color_distance_sq rgb c < bd
      · have hstep : quantizeAux rgb (c :: rest) idx bi (some bd)
            = quantizeAux rgb rest (idx + 1) idx (some (color_distance_sq rgb c)) := by
          simp [quantizeAux, hd]
        rcases ih (idx + 1) idx (color_distance_sq rgb c) with
          ⟨hr, hmin⟩ | ⟨k, hk, hr, hlt, hmin, hstrict⟩
        · right
          refine ⟨0, by simp, ?_, by simpa using hd, ?_, ?_⟩
          · simpa [hstep] using hr
          · intro m hm
            cases m with
            | zero => simp
            | succ m =>
                simp only [List.getD_cons_zero, List.getD_cons_succ]
                exact hmin m (by simpa using hm)
          · intro m hm
            omega
        · right
          refine ⟨k + 1, by simpa using Nat.succ_lt_succ hk, ?_, ?_, ?_, ?_⟩
          · rw [hstep, hr]; omega
          · simp only [List.getD_cons_succ]
            exact lt_trans hlt hd
          · intro m hm
            cases m with
            | zero =>
                simp only [List.getD_cons_succ, List.getD_cons_zero]
                exact le_of_lt hlt
            | succ m =>
                simp only [List.getD_cons_succ]
                exact hmin m (by simpa using hm)
          · intro m hm
            cases m with
            | zero =>
                simp only [List.getD_cons_succ, List.getD_cons_zero]
                exact hlt
            | succ m =>
                simp only [List.getD_cons_succ]
                exact hstrict m (by omega)
      · have hstep : quantizeAux rgb (c :: rest) idx bi (some bd)
            = quantizeAux rgb rest (idx + 1) bi (some bd) := by
          simp [quantizeAux, hd]
        have hbd : bd ≤ color_distance_sq rgb c := not_lt.mp hd
        rcases ih (idx + 1) bi bd with
          ⟨hr, hmin⟩ | ⟨k, hk, hr, hlt, hmin, hstrict⟩
        · left
          constructor
          · rw [hstep]; exact hr
          · intro m hm
            cases m with
            | zero => simpa using hbd
            | succ m =>
                simp only [List.getD_cons_succ]
                exact hmin m (by simpa using hm)
        · right
          refine ⟨k + 1, by simpa using Nat.succ_lt_succ hk, ?_, ?_, ?_, ?_⟩
          · rw [hstep, hr]; omega
          · simp only [List.getD_cons_succ]
            exact hlt
          · intro m hm
            cases m with
            | zero =>
                simp only [List.getD_cons_succ, List.getD_cons_zero]
                exact le_of_lt (lt_of_lt_of_le hlt hbd)
            | succ m =>
                simp only [List.getD_cons_succ]
                exact hmin m (by simpa using hm)
          · intro m hm
            cases m with
            | zero =>
                simp only [List.getD_cons_succ, List.getD_cons_zero]
                exact lt_of_lt_of_le hlt hbd
            | succ m =>
                simp only [List.getD_cons_succ]
                exact hstrict m (by omega)

/-- Unfolding the first loop iteration: the None branch stores the distance
to the black entry and the scan proceeds over the remaining seven entries. -/
lemma quantize_unfold_first (rgb : Color) :
    quantize_color_to_palette_3bit rgb
      = quantizeAux rgb
          [(0, 0, 255), (0, 255, 0), (0, 255, 255), (255, 0, 0),
           (255, 0, 255), (255, 255, 0), (255, 255, 255)]
          1 0 (some (color_distance_sq rgb (0, 0, 0))) := rfl

/-- Entry lookup at a successor index lands in the palette tail. -/
lemma distToEntry_succ (rgb : Color) (j : ℕ) :
    distToEntry rgb (j + 1)
      = color_distance_sq rgb
          (([(0, 0, 255), (0, 255, 0), (0, 255, 255), (255, 0, 0),
             (255, 0, 255), (255, 255, 0), (255, 255, 255)] : List Color).getD
            j (0, 0, 0)) := by
  simp [distToEntry, PALETTE_8_COLORS]

/-- Characterization of the quantizer: the returned index is below 8, attains
the minimal distance over all 8 entries, and strictly beats every entry that
precedes it in declaration order (first seen wins on ties). -/
lemma quantize_spec (rgb : Color) :
    quantize_color_to_palette_3bit rgb < 8 ∧
    (∀ j, j < 8 →
      distToEntry rgb (quantize_color_to_palette_3bit rgb) ≤ distToEntry rgb j) ∧
    (∀ j, j < quantize_color_to_palette_3bit rgb →
      distToEntry rgb (quantize_color_to_palette_3bit rgb) < distToEntry rgb j) := by
  have hd0 : distToEntry rgb 0 = color_distance_sq rgb (0, 0, 0) := rfl
  rcases quantizeAux_spec rgb
      [(0, 0, 255), (0, 255, 0), (0, 255, 255), (255, 0, 0),
       (255, 0, 255), (255, 255, 0), (255, 255, 255)]
      1 0 (color_distance_sq rgb (0, 0, 0)) with
    ⟨hr, hmin⟩ | ⟨k, hk, hr, hlt, hmin, hstrict⟩
  · rw [quantize_unfold_first, hr]
    refine ⟨by norm_num, ?_, ?_⟩
    · intro j hj
      cases j with
      | zero => exact le_refl _
      | succ j =>
          rw [hd0, distToEntry_succ]
          exact hmin j (by simp; omega)
    · intro j hj
      omega
  · have hq : quantize_color_to_palette_3bit rgb = 1 + k := by
      rw [quantize_unfold_first]; exact hr
    simp only [List.length_cons, List.length_nil] at hk
    have hq' : quantize_color_to_palette_3bit rgb = k + 1 := by omega
    refine ⟨by omega, ?_, ?_⟩
    · intro j hj
      rw [hq', distToEntry_succ]
      cases j with
      | zero => rw [hd0]; exact le_of_lt hlt
      | succ j => rw [distToEntry_succ]; exact hmin j (by simp; omega)
    · intro j hj
      rw [hq'] at hj
      rw [hq', distToEntry_succ]
      cases j with
      | zero => rw [hd0]; exact hlt
      | succ j => rw [distToEntry_succ]; exact hstrict j (by omega)

/-- The threshold encoding always lands in the palette index range. -/
lemma threshold_encode_lt_8 (rgb : Color) : threshold_encode rgb < 8 := by
  unfold threshold_encode
  split_ifs <;> norm_num

/-- On the corners of the RGB cube the threshold index is the strictly unique
nearest palette entry: every other entry is strictly farther. Only the cutoff
at 127.5 matters, never attained by an integer channel. -/
lemma threshold_unique_min (r g b : ℤ) :
    ∀ j, j < 8 → j ≠ threshold_encode (r, g, b) →
      distToEntry (r, g, b) (threshold_encode (r, g, b)) < distToEntry (r, g, b) j := by
  intro j hj hne
  by_cases hr : 128 ≤ r <;> by_cases hg : 128 ≤ g <;> by_cases hb : 128 ≤ b <;>
    simp only [threshold_encode, hr, hg, hb, if_true, if_false] at hne ⊢ <;>
    norm_num at hne ⊢ <;>
    interval_cases j <;>
    simp_all [distToEntry, PALETTE_8_COLORS, color_distance_sq] <;>
    linarith

/-- The quantizer agrees with the threshold encoding (in fact on every integer
triple: the argument needs only that no integer sits on the 127.5 cutoff). -/
lemma quantize_eq_threshold (r g b : ℤ) :
    quantize_color_to_palette_3bit (r, g, b) = threshold_encode (r, g, b) := by
  obtain ⟨hlt, hmin, _⟩ := quantize_spec (r, g, b)
  by_contra hne
  have h1 := threshold_unique_min r g b
    (quantize_color_to_palette_3bit (r, g, b)) hlt (fun h => hne h)
  have h2 := hmin (threshold_encode (r, g, b)) (threshold_encode_lt_8 _)
  exact absurd (lt_of_le_of_lt h2 h1) (lt_irrefl _)

/-- The row-major double loop equals indexing a flat range by division and
remainder. -/
lemma range_bind_map_eq (f : ℕ → ℕ → ℕ) (W : ℕ) :
    ∀ H, ((List.range H).flatMap fun y => (List.range W).map fun x => f x y)
      = (List.range (H * W)).map fun i => f (i % W) (i / W) := by
  intro H
  induction H with
  | zero => simp
  | succ H ih =>
      rw [List.range_succ, List.flatMap_append, ih, Nat.succ_mul, List.range_add,
        List.map_append, List.map_map, List.flatMap_singleton]
      congr 1
      apply List.map_congr_left
      intro j hj
      have hjW : j < W := List.mem_range.mp hj
      have h1 : (H * W + j) % W = j := by
        rw [mul_comm, Nat.mul_add_mod]
        exact Nat.mod_eq_of_lt hjW
      have h2 : (H * W + j) / W = H := by
        rw [mul_comm, Nat.mul_add_div (by omega)]
        simp [Nat.div_eq_of_lt hjW]
      simp [Function.comp, h1, h2]

/-- The encoder output has one index per grid pixel. -/
lemma load_length (getpixel : ℕ → ℕ → Color) (W H : ℕ) :
    (load_and_convert_to_3bit_indices getpixel W H).1.length = W * H := by
  show ((List.range H).flatMap fun y => (List.range W).map fun x =>
      quantize_color_to_palette_3bit (getpixel x y)).length = W * H
  rw [range_bind_map_eq (fun x y => quantize_color_to_palette_3bit (getpixel x y)) W H]
  simp [mul_comm]

/-- The encoder output at flat position y*W+x is the quantization of the
pixel at column x of row y. -/
lemma load_getElem (getpixel : ℕ → ℕ → Color) (W H x y : ℕ)
    (hx : x < W) (hy : y < H) :
    (load_and_convert_to_3bit_indices getpixel W H).1[y * W + x]?
      = some (quantize_color_to_palette_3bit (getpixel x y)) := by
  show ((List.range H).flatMap fun y => (List.range W).map fun x =>
      quantize_color_to_palette_3bit (getpixel x y))[y * W + x]? = _
  rw [range_bind_map_eq (fun x y => quantize_color_to_palette_3bit (getpixel x y)) W H]
  have hlt : y * W + x < H * W := by
    have h1 : y * W + x < (y + 1) * W := by
      rw [Nat.succ_mul]; omega
    have h2 : (y + 1) * W ≤ H * W := Nat.mul_le_mul_right W hy
    omega
  rw [List.getElem?_map, List.getElem?_range hlt]
  have h1 : (y * W + x) % W = x := by
    rw [mul_comm, Nat.mul_add_mod]
    exact Nat.mod_eq_of_lt hx
  have h2 : (y * W + x) / W = y := by
    rw [mul_comm, Nat.mul_add_div (by omega)]
    simp [Nat.div_eq_of_lt hx]
  simp [h1, h2]

/-- When magic and dimensions are valid the builder returns the concatenated
packet. -/
lemma build_ok (pixel_indices : List ℤ) (w h : ℤ) (magic : List ℕ)
    (hm : magic.length = 4) (hw0 : 0 ≤ w) (hw1 : w < 65536)
    (hh0 : 0 ≤ h) (hh1 : h < 65536) :
    build_image_packet pixel_indices w h magic
      = Except.ok (magic ++ [(w / 256).toNat, (w % 256).toNat]
          ++ [(h / 256).toNat, (h % 256).toNat]
          ++ pack_pixels_1byte_per_pixel pixel_indices) := by
  simp [build_image_packet, int_to_bytes_2_be, hm, hw0, hw1, hh0, hh1]

/-- Every packet the builder returns has 8 header bytes plus one byte per
supplied index, regardless of width and height. -/
lemma build_ok_length (pixel_indices : List ℤ) (w h : ℤ) (magic : List ℕ)
    (pkt : List ℕ)
    (hok : build_image_packet pixel_indices w h magic = Except.ok pkt) :
    pkt.length = 8 + pixel_indices.length := by
  unfold build_image_packet at hok
  by_cases hm : magic.length = 4
  · simp only [hm] at hok
    norm_num at hok
    unfold int_to_bytes_2_be at hok
    by_cases hw : 0 ≤ w ∧ w < 65536
    · by_cases hh : 0 ≤ h ∧ h < 65536
      · simp only [if_pos hw, if_pos hh] at hok
        cases hok
        simp [pack_pixels_1byte_per_pixel, hm]
        omega
      · simp [if_pos hw, if_neg hh] at hok
    · simp [if_neg hw] at hok
  · simp [hm] at hok

/-- C1: the claim states that build_image_packet fails with a GridSizeMismatch
error whenever the index count differs from width times height. The code has
no such check: this closed counterexample shows the builder returning a
packet for an empty index list with width = height = 1, where the count 0
differs from 1 * 1. -/
theorem C1_counterexample :
    build_image_packet [] 1 1 DEFAULT_MAGIC
      = Except.ok [73, 77, 71, 51, 0, 1, 0, 1] ∧
    ([] : List ℤ).length ≠ 1 * 1 := by
  exact ⟨rfl, by decide⟩

/-- C1 (amended): build_image_packet performs no index-count validation. For
every magic of length 4 and dimensions within the 16-bit range, even when the
index count differs from width times height, it returns a packet of length
8 + count rather than failing. -/
theorem C1_no_grid_size_check (pixel_indices : List ℤ) (w h : ℤ)
    (magic : List ℕ) (hm : magic.length = 4) (hw0 : 0 ≤ w) (hw1 : w < 65536)
    (hh0 : 0 ≤ h) (hh1 : h < 65536)
    (hmismatch : (pixel_indices.length : ℤ) ≠ w * h) :
    ∃ pkt, build_image_packet pixel_indices w h magic = Except.ok pkt ∧
      pkt.length = 8 + pixel_indices.length := by
  refine ⟨_, build_ok pixel_indices w h magic hm hw0 hw1 hh0 hh1, ?_⟩
  simp [pack_pixels_1byte_per_pixel, hm]
  omega

/-- C1 witness: the amended statement instantiated at the counterexample
shape (two indices announced as a 1 x 1 image). -/
theorem C1_witness :
    ∃ pkt, build_image_packet [3, 4] 1 1 DEFAULT_MAGIC = Except.ok pkt ∧
      pkt.length = 8 + ([3, 4] : List ℤ).length :=
  C1_no_grid_size_check [3, 4] 1 1 DEFAULT_MAGIC (by decide) (by decide)
    (by decide) (by decide) (by decide) (by decide)

/-- C2: the claim states that every returned packet has length exactly
8 + width * height. Because no index-count check exists, a packet built from
one index announced as a 2 x 1 image has length 9, not 8 + 2 * 1 = 10. -/
theorem C2_counterexample :
    build_image_packet [5] 2 1 DEFAULT_MAGIC
      = Except.ok [73, 77, 71, 51, 0, 2, 0, 1, 5] ∧
    ([73, 77, 71, 51, 0, 2, 0, 1, 5] : List ℕ).length ≠ 8 + 2 * 1 := by
  exact ⟨rfl, by decide⟩

/-- C2 (amended): every packet build_image_packet returns has length exactly
8 + (number of supplied indices); this equals 8 + width * height exactly when
the index count matches width * height. -/
theorem C2_packet_length (pixel_indices : List ℤ) (w h : ℤ) (magic : List ℕ)
    (pkt : List ℕ)
    (hok : build_image_packet pixel_indices w h magic = Except.ok pkt) :
    pkt.length = 8 + pixel_indices.length ∧
    ((pixel_indices.length : ℤ) = w * h → (pkt.length : ℤ) = 8 + w * h) := by
  have hlen := build_ok_length pixel_indices w h magic pkt hok
  constructor
  · exact hlen
  · intro hcount
    rw [hlen]
    push_cast
    omega

/-- C2 witness: the amended statement instantiated at a well-formed 2 x 1
build. -/
theorem C2_witness :
    ([73, 77, 71, 51, 0, 2, 0, 1, 1, 2] : List ℕ).length
        = 8 + ([1, 2] : List ℤ).length ∧
    ((([1, 2] : List ℤ).length : ℤ) = 2 * 1 →
      (([73, 77, 71, 51, 0, 2, 0, 1, 1, 2] : List ℕ).length : ℤ) = 8 + 2 * 1) :=
  C2_packet_length [1, 2] 2 1 DEFAULT_MAGIC [73, 77, 71, 51, 0, 2, 0, 1, 1, 2] rfl

/-- C3: for every 4-byte magic, dimensions within 0..65535 and every index
list, the built packet starts with the magic, and bytes 4..5 and 6..7 decode
as big-endian unsigned 16-bit integers back to width and height. -/
theorem C3_header_roundtrip (pixel_indices : List ℤ) (w h : ℤ) (magic : List ℕ)
    (hm : magic.length = 4) (hw0 : 0 ≤ w) (hw1 : w < 65536)
    (hh0 : 0 ≤ h) (hh1 : h < 65536) :
    ∃ pkt, build_image_packet pixel_indices w h magic = Except.ok pkt ∧
      pkt.take 4 = magic ∧
      ((256 * pkt.getD 4 0 + pkt.getD 5 0 : ℕ) : ℤ) = w ∧
      ((256 * pkt.getD 6 0 + pkt.getD 7 0 : ℕ) : ℤ) = h := by
  refine ⟨_, build_ok pixel_indices w h magic hm hw0 hw1 hh0 hh1, ?_, ?_, ?_⟩
  · match magic, hm with
    | [a, b, c, d], _ => simp
  · match magic, hm with
    | [a, b, c, d], _ =>
        simp only [List.cons_append, List.nil_append, List.getD_cons_succ,
          List.getD_cons_zero]
        push_cast
        omega
  · match magic, hm with
    | [a, b, c, d], _ =>
        simp only [List.cons_append, List.nil_append, List.getD_cons_succ,
          List.getD_cons_zero]
        push_cast
        omega

/-- C3 witness: header round-trip at width 258, height 3 with the default
magic, exercising both bytes of the width field. -/
theorem C3_witness :
    ∃ pkt, build_image_packet [0] 258 3 DEFAULT_MAGIC = Except.ok pkt ∧
      pkt.take 4 = DEFAULT_MAGIC ∧
      ((256 * pkt.getD 4 0 + pkt.getD 5 0 : ℕ) : ℤ) = 258 ∧
      ((256 * pkt.getD 6 0 + pkt.getD 7 0 : ℕ) : ℤ) = 3 :=
  C3_header_roundtrip [0] 258 3 DEFAULT_MAGIC (by decide) (by decide)
    (by decide) (by decide) (by decide)

/-- C4: every payload byte (bytes 8 onward of a successfully built packet)
equals the corresponding index reduced to its low 3 bits, hence lies in
0..7, even for indices outside 0..7. -/
theorem C4_payload_masked (pixel_indices : List ℤ) (w h : ℤ) (magic : List ℕ)
    (pkt : List ℕ)
    (hok : build_image_packet pixel_indices w h magic = Except.ok pkt)
    (j : ℕ) (hj : j < pixel_indices.length) :
    (pkt.drop 8)[j]? = some ((pixel_indices.getD j 0 % 8).toNat) ∧
      (pixel_indices.getD j 0 % 8).toNat < 8 := by
  constructor
  · unfold build_image_packet at hok
    by_cases hm : magic.length = 4
    · simp only [hm] at hok
      norm_num at hok
      unfold int_to_bytes_2_be at hok
      by_cases hw : 0 ≤ w ∧ w < 65536
      · by_cases hh : 0 ≤ h ∧ h < 65536
        · simp only [if_pos hw, if_pos hh] at hok
          cases hok
          match magic, hm with
          | [a, b, c, d], _ =>
              simp only [List.cons_append, List.nil_append, List.drop_succ_cons,
                List.drop_zero]
              rw [pack_pixels_1byte_per_pixel, List.getElem?_map,
                List.getElem?_eq_getElem hj]
              simp [List.getD, List.getElem?_eq_getElem hj]
        · simp [if_pos hw, if_neg hh] at hok
      · simp [if_neg hw] at hok
    · simp [hm] at hok
  · have h1 : pixel_indices.getD j 0 % 8 < 8 :=
      Int.emod_lt_of_pos _ (by norm_num)
    omega

/-- C4 witness: payload masking at index list [9, -3]: the second payload
byte is 5, the residue of -3 modulo 8. -/
theorem C4_witness :
    (([73, 77, 71, 51, 0, 1, 0, 2, 1, 5] : List ℕ).drop 8)[1]?
        = some ((([9, -3] : List ℤ).getD 1 0 % 8).toNat) ∧
      (([9, -3] : List ℤ).getD 1 0 % 8).toNat < 8 :=
  C4_payload_masked [9, -3] 1 2 DEFAULT_MAGIC
    [73, 77, 71, 51, 0, 1, 0, 2, 1, 5] (by rfl) 1 (by decide)

/-- C5: for a grid of positive width and height, the encoder loop produces
exactly width * height indices, and the element at flat position y*W+x is the
quantization of the pixel at column x of row y: rows are the outer loop,
columns the inner loop. -/
theorem C5_frame_encoder (getpixel : ℕ → ℕ → Color) (W H x y : ℕ)
    (hW : 0 < W) (hH : 0 < H) (hx : x < W) (hy : y < H) :
    (load_and_convert_to_3bit_indices getpixel W H).1.length = W * H ∧
    (load_and_convert_to_3bit_indices getpixel W H).1[y * W + x]?
      = some (quantize_color_to_palette_3bit (getpixel x y)) :=
  ⟨load_length getpixel W H, load_getElem getpixel W H x y hx hy⟩

/-- C5 witness: a uniform red 2 x 2 grid encodes to four indices and position
y*W+x = 3 holds the quantization (index 4) of the pixel at (1, 1). -/
theorem C5_witness :
    (load_and_convert_to_3bit_indices (fun _ _ => ((255 : ℤ), (0 : ℤ), (0 : ℤ)))
        2 2).1.length = 2 * 2 ∧
    (load_and_convert_to_3bit_indices (fun _ _ => ((255 : ℤ), (0 : ℤ), (0 : ℤ)))
        2 2).1[1 * 2 + 1]?
      = some (quantize_color_to_palette_3bit
          ((fun _ _ => ((255 : ℤ), (0 : ℤ), (0 : ℤ))) 1 1)) :=
  C5_frame_encoder (fun _ _ => ((255 : ℤ), (0 : ℤ), (0 : ℤ))) 2 2 1 1
    (by decide) (by decide) (by decide) (by decide)

/-- C6: each of the 8 palette colors quantizes to its own declared index. -/
theorem C6_palette_roundtrip :
    ∀ i : Fin 8,
      quantize_color_to_palette_3bit (PALETTE_8_COLORS.getD i (0, 0, 0)) = i := by
  decide

/-- C7: for every RGB color the quantizer returns a palette index of minimal
squared euclidean distance, and whenever another entry attains that minimal
distance the returned index is the lowest one (first seen in declaration
order wins). -/
theorem C7_nearest_lowest_index (rgb : Color) (j : ℕ) (hj : j < 8) :
    quantize_color_to_palette_3bit rgb < 8 ∧
    distToEntry rgb (quantize_color_to_palette_3bit rgb) ≤ distToEntry rgb j ∧
    (distToEntry rgb j = distToEntry rgb (quantize_color_to_palette_3bit rgb) →
      quantize_color_to_palette_3bit rgb ≤ j) := by
  obtain ⟨hlt, hmin, hstrict⟩ := quantize_spec rgb
  refine ⟨hlt, hmin j hj, ?_⟩
  intro heq
  by_contra hgt
  have := hstrict j (by omega)
  omega

/-- C7 witness: at the color (100, 155, 0), which is equidistant from the
black and yellow entries, the minimality and tie ordering hold against
entry 6. -/
theorem C7_witness :
    quantize_color_to_palette_3bit (100, 155, 0) < 8 ∧
    distToEntry (100, 155, 0) (quantize_color_to_palette_3bit (100, 155, 0))
        ≤ distToEntry (100, 155, 0) 6 ∧
    (distToEntry (100, 155, 0) 6
        = distToEntry (100, 155, 0) (quantize_color_to_palette_3bit (100, 155, 0)) →
      quantize_color_to_palette_3bit (100, 155, 0) ≤ 6) :=
  C7_nearest_lowest_index (100, 155, 0) 6 (by decide)

/-- C8: a magic argument whose length is not 4 makes build_image_packet fail
immediately with the invalid-magic-length error; no bytes are produced. -/
theorem C8_invalid_magic_length (pixel_indices : List ℤ) (w h : ℤ)
    (magic : List ℕ) (hm : magic.length ≠ 4) :
    build_image_packet pixel_indices w h magic
      = Except.error PacketError.invalidMagicLength := by
  simp [build_image_packet, hm]

/-- C8 witness: a 3-byte magic is rejected. -/
theorem C8_witness :
    build_image_packet [0] 1 1 [73, 77, 71]
      = Except.error PacketError.invalidMagicLength :=
  C8_invalid_magic_length [0] 1 1 [73, 77, 71] (by decide)

/-- C9: with a valid magic, a width or height outside 0..65535 makes
build_image_packet fail immediately with the dimension range error (the
OverflowError of int.to_bytes); no packet is returned. -/
theorem C9_dimension_out_of_range (pixel_indices : List ℤ) (w h : ℤ)
    (magic : List ℕ) (hm : magic.length = 4)
    (hrange : ¬(0 ≤ w ∧ w ≤ 65535) ∨ ¬(0 ≤ h ∧ h ≤ 65535)) :
    build_image_packet pixel_indices w h magic
      = Except.error PacketError.dimensionOutOfRange := by
  unfold build_image_packet
  simp only [hm]
  norm_num
  unfold int_to_bytes_2_be
  rcases hrange with hw | hh
  · rw [if_neg (by omega)]
  · by_cases hw : 0 ≤ w ∧ w < 65536
    · rw [if_pos hw, if_neg (by omega)]
    · rw [if_neg hw]

/-- C9 witness: width 65536 is rejected. -/
theorem C9_witness :
    build_image_packet [] 65536 1 DEFAULT_MAGIC
      = Except.error PacketError.dimensionOutOfRange :=
  C9_dimension_out_of_range [] 65536 1 DEFAULT_MAGIC (by decide)
    (Or.inl (by decide))

/-- C10: the claim also asserts that no exact distance tie between distinct
palette entries ever occurs for 8-bit inputs. The 8-bit color (100, 155, 0)
is equidistant (squared distance 34025) from entry 0 (black) and entry 6
(yellow), two distinct entries, refuting that assertion; neither entry is the
nearest one (green, at distance 20000, is). -/
theorem C10_counterexample :
    distToEntry (100, 155, 0) 0 = distToEntry (100, 155, 0) 6 ∧
    PALETTE_8_COLORS.getD 0 (0, 0, 0) ≠ PALETTE_8_COLORS.getD 6 (0, 0, 0) ∧
    distToEntry (100, 155, 0) 0 = 34025 := by
  decide

/-- C10 (amended): for every RGB triple with channels in 0..255 the quantizer
equals the per-channel threshold encoding, and the minimal distance is
attained by a unique palette entry (no tie at the minimum), although distinct
non-minimal entries can be equidistant from the input. -/
theorem C10_threshold_refinement (r g b : ℤ) (hr0 : 0 ≤ r) (hr1 : r ≤ 255)
    (hg0 : 0 ≤ g) (hg1 : g ≤ 255) (hb0 : 0 ≤ b) (hb1 : b ≤ 255) :
    quantize_color_to_palette_3bit (r, g, b) = threshold_encode (r, g, b) ∧
    ∀ j, j < 8 → j ≠ threshold_encode (r, g, b) →
      distToEntry (r, g, b) (threshold_encode (r, g, b))
        < distToEntry (r, g, b) j :=
  ⟨quantize_eq_threshold r g b, threshold_unique_min r g b⟩

/-- C10 witness: the refinement at the 8-bit color (200, 10, 100), whose
threshold encoding is 4 (red). -/
theorem C10_witness :
    quantize_color_to_palette_3bit (200, 10, 100) = threshold_encode (200, 10, 100) ∧
    ∀ j, j < 8 → j ≠ threshold_encode (200, 10, 100) →
      distToEntry (200, 10, 100) (threshold_encode (200, 10, 100))
        < distToEntry (200, 10, 100) j :=
  C10_threshold_refinement 200 10 100 (by decide) (by decide) (by decide)
    (by decide) (by decide) (by decide)

end ImageSender
